import Mathlib

/-!
Verification of the holltwr compact-annotation parser
(src/holltwr/parser.py, src/holltwr/conventions.py, src/holltwr/errors.py).

Python strings are modelled as lists of characters (`Str`); Python dicts as
insertion-ordered association lists, with assignment modelled by `dictInsert`
(overwrite in place, append when the key is new) and iteration as list order.
Fallible code returns `Except`.
-/

namespace Holltwr

/-- Python `str`, modelled as its sequence of characters. -/
abbrev Str := List Char

/-- Python dict lookup `m[k]` / `k in m` on an insertion-ordered mapping. -/
def lookupAssoc {α β : Type} [DecidableEq α] : List (α × β) → α → Option β
  | [], _ => none
  | kv :: rest, a => if kv.1 = a then some kv.2 else lookupAssoc rest a

/-- Python dict assignment `m[k] = v`: overwrite in place when the key exists,
append at the end when it is new. -/
def dictInsert {α β : Type} [DecidableEq α] (m : List (α × β)) (k : α) (v : β) :
    List (α × β) :=
  if k ∈ m.map Prod.fst then
    m.map (fun kv => if kv.1 = k then (k, v) else kv)
  else m ++ [(k, v)]

/-- The effect of one dict assignment on the ordered key list. -/
def insertKeyList {α : Type} [DecidableEq α] (ks : List α) (k : α) : List α :=
  if k ∈ ks then ks else ks ++ [k]

/-- First-occurrence deduplication: the key order of a dict built by assigning
every element of a list in turn. -/
def dedupFirstOcc {α : Type} [DecidableEq α] (l : List α) : List α :=
  l.foldl insertKeyList []

/-- Python `sep.join(parts)`. -/
def joinSep (sep : Str) : List Str → Str
  | [] => []
  | [x] => x
  | x :: y :: rest => x ++ sep ++ joinSep sep (y :: rest)

/-- Python `s.split(c)` for a single-character separator `c`: every occurrence
splits, empty segments kept, the empty string gives one empty segment. -/
def splitOnChar (c : Char) : Str → List Str
  | [] => [[]]
  | x :: rest =>
    match splitOnChar c rest with
    | [] => [[]]
    | s :: ss => if x = c then [] :: s :: ss else (x :: s) :: ss

/-- Python `s.split(c, 1)` restricted to strings containing `c`: the part
strictly before the first occurrence of `c` and the part strictly after it. -/
def splitFirst (c : Char) : Str → Str × Str
  | [] => ([], [])
  | x :: rest =>
    if x = c then ([], rest)
    else
      let r := splitFirst c rest
      (x :: r.1, r.2)

/-- Lines 85-88 of parser.py: the comment split at the start of
`AnnotationParser.parse`. Returns `(remainder, comment)`. -/
def commentSplit (cm : Char) (compact : Str) : Str × Option Str :=
  if cm ∈ compact then
    let r := splitFirst cm compact
    (r.1, some r.2)
  else (compact, none)

/-- conventions.py `Tag`: a single input character (the source validates the
length-one invariant at construction, so the field is a `Char`), an output
string and a description. -/
structure Tag where
  input : Char
  output : Str
  description : Str := []
deriving DecidableEq

/-- The two values of `SpecialTag.Functions` in conventions.py. -/
inductive SpecialFunction where
  | partSeparator
  | comment
deriving DecidableEq

/-- conventions.py `SpecialTag`: a tag with a structural function. -/
structure SpecialTag where
  input : Char
  function : SpecialFunction
  output : Str := []
  preserve : Bool := false
deriving DecidableEq

/-- conventions.py `Meta` (descriptive bookkeeping only). -/
structure Meta where
  name : Str
  version : Str
  date : Str
  description : Str := []
  author : Str := []
deriving DecidableEq

/-- conventions.py `Options`. -/
structure Options where
  compact_tier : Str
  retain_compact : Bool := true
  case_sensitive : Bool := true
  tag_separator : Str := [',']
deriving DecidableEq

/-- A value of the combined tag namespace (`Tag | SpecialTag` in the source). -/
inductive ConventionTag where
  | plain (t : Tag)
  | special (t : SpecialTag)
deriving DecidableEq

/-- The `output` of either kind of tag. -/
def ConventionTag.output : ConventionTag → Str
  | .plain t => t.output
  | .special t => t.output

/-- conventions.py `Tier`: a name and an ordered mapping from tag character to
the resolved tag. -/
structure Tier where
  name : Str
  content : List (Char × ConventionTag)
deriving DecidableEq

/-- conventions.py `Convention`: the aggregate root. -/
structure Convention where
  meta : Meta
  options : Options
  special_tags : List (Char × SpecialTag)
  tags : List (Char × Tag)
  tiers : List (Str × Tier)
deriving DecidableEq

/-- The `ChainMap(tags, special_tags)` lookup: plain tags shadow special tags. -/
def chainLookup (tags : List (Char × Tag)) (special_tags : List (Char × SpecialTag))
    (c : Char) : Option ConventionTag :=
  match lookupAssoc tags c with
  | some t => some (ConventionTag.plain t)
  | none =>
    match lookupAssoc special_tags c with
    | some st => some (ConventionTag.special st)
    | none => none

/-- The `special-tags` document section after schema validation: the schema
(convention.schema.json, shipped as package data and not under src/) restricts
each entry to a single-character key, a `function` drawn from the two-value
enum, an optional output string and an optional preserve flag; those shape
constraints are encoded in this structure's types. -/
structure SpecialTagData where
  function : SpecialFunction
  output : Str := []
  preserve : Bool := false
deriving DecidableEq

/-- The `tags` document section after schema validation: single-character key,
output string, optional description. -/
structure TagData where
  output : Str
  description : Str := []
deriving DecidableEq

/-- A convention document that has passed schema validation, as consumed by
`Convention.fromdata` (conventions.py lines 237-254). The schema-enforced
shape (required sections, single-character tag keys, the function enum) is
encoded in the types; `fromdata`'s post-schema construction is modelled on it
directly. -/
structure ConventionData where
  meta : Meta
  options : Options
  special_tags : List (Char × SpecialTagData)
  tags : List (Char × TagData)
  tiers : List (Str × List Char)
deriving DecidableEq

/-- The error raised by `Convention.fromdata` when a tier references an
undefined tag: `KeyError(f"Tier {tier_label!r} references undefined tag
{tag_label!r}")`, carrying the offending tier label and tag character. -/
inductive LoadError where
  | keyError (tier : Str) (tag : Char)
deriving DecidableEq

/-- The `special_tags[tag_label] = SpecialTag(tag_label, **tag_props)` loop of
`Convention.fromdata`. -/
def buildSpecialTags (acc : List (Char × SpecialTag)) :
    List (Char × SpecialTagData) → List (Char × SpecialTag)
  | [] => acc
  | kv :: rest =>
    buildSpecialTags
      (dictInsert acc kv.1 (SpecialTag.mk kv.1 kv.2.function kv.2.output kv.2.preserve))
      rest

/-- The `tags[tag_label] = Tag(tag_label, *tag_props)` loop of
`Convention.fromdata`. -/
def buildTags (acc : List (Char × Tag)) : List (Char × TagData) → List (Char × Tag)
  | [] => acc
  | kv :: rest =>
    buildTags (dictInsert acc kv.1 (Tag.mk kv.1 kv.2.output kv.2.description)) rest

/-- The inner loop of `Convention.fromdata` over one tier's tag labels:
resolve each referenced character in the combined namespace, raising a
`KeyError` naming the tier and the character when it does not resolve. -/
def buildTierTags (tags : List (Char × Tag)) (sts : List (Char × SpecialTag))
    (tier_label : Str) (acc : List (Char × ConventionTag)) :
    List Char → Except LoadError (List (Char × ConventionTag))
  | [] => .ok acc
  | c :: rest =>
    match chainLookup tags sts c with
    | none => .error (.keyError tier_label c)
    | some t => buildTierTags tags sts tier_label (dictInsert acc c t) rest

/-- The outer loop of `Convention.fromdata` over the `tiers` section. -/
def buildTiers (tags : List (Char × Tag)) (sts : List (Char × SpecialTag))
    (acc : List (Str × Tier)) :
    List (Str × List Char) → Except LoadError (List (Str × Tier))
  | [] => .ok acc
  | tkv :: rest =>
    match buildTierTags tags sts tkv.1 [] tkv.2 with
    | .error e => .error e
    | .ok content => buildTiers tags sts (dictInsert acc tkv.1 (Tier.mk tkv.1 content)) rest

/-- conventions.py `Convention.fromdata`, after the schema-validation call:
build the special tags, the plain tags, then the tiers by resolving every
referenced character against `ChainMap(tags, special_tags)`. -/
def Convention.fromdata (data : ConventionData) : Except LoadError Convention :=
  let special_tags := buildSpecialTags [] data.special_tags
  let tags := buildTags [] data.tags
  match buildTiers tags special_tags [] data.tiers with
  | .error e => .error e
  | .ok tiers =>
    .ok { meta := data.meta, options := data.options,
          special_tags := special_tags, tags := tags, tiers := tiers }

/-- parser.py `AnnotationTierType`. -/
inductive AnnotationTierType where
  | GENERAL
  | COMMENT
deriving DecidableEq

/-- parser.py `AnnotationPart`. -/
structure AnnotationPart where
  compact : Str
  separator : Str
  expanded : List Str
deriving DecidableEq

/-- `AnnotationPart.join`: the tag-separator join of the expanded fragments. -/
def AnnotationPart.join (p : AnnotationPart) : Str :=
  joinSep p.separator p.expanded

/-- parser.py `AnnotationTier`. -/
structure AnnotationTier where
  separator : Str
  parts : List AnnotationPart
  type : AnnotationTierType := .GENERAL
deriving DecidableEq

/-- `AnnotationTier.join`: parts joined with the part-separator output. -/
def AnnotationTier.join (t : AnnotationTier) : Str :=
  joinSep t.separator (t.parts.map AnnotationPart.join)

/-- parser.py `AnnotationParse`. -/
structure AnnotationParse where
  convention : Convention
  compact : Str
  tiers : List (Str × AnnotationTier)
deriving DecidableEq

/-- `AnnotationParse.joined`: tier name to fully joined text. -/
def AnnotationParse.joined (r : AnnotationParse) : List (Str × Str) :=
  r.tiers.map (fun kv => (kv.1, kv.2.join))

/-- The errors `AnnotationParser.parse` can raise: `UnknownTagError(tag, file)`
from errors.py, and Python's `AttributeError` when the convention bound to the
parser never set `_comment_marker` or `_part_separator`. -/
inductive ParseError where
  | unknownTag (tag : Char) (file : Option Str)
  | attributeError
deriving DecidableEq

/-- parser.py `AnnotationParser`: a bound convention and an optional
source-file label for diagnostics. -/
structure AnnotationParser where
  convention : Convention
  filename : Option Str := none
deriving DecidableEq

/-- The convention setter's loop over `convention.special_tags.values()`
(parser.py lines 78-82): each matching special tag overwrites the attribute,
so the last one in iteration order wins; `none` models the attribute staying
unset when no special tag has the function. -/
def findSpecial (sts : List (Char × SpecialTag)) (f : SpecialFunction) :
    Option SpecialTag :=
  sts.foldl (fun acc kv => if kv.2.function = f then some kv.2 else acc) none

/-- The parser's cached `_comment_marker`. -/
def AnnotationParser.commentMarker (p : AnnotationParser) : Option SpecialTag :=
  findSpecial p.convention.special_tags SpecialFunction.comment

/-- The parser's cached `_part_separator`. -/
def AnnotationParser.partSeparator (p : AnnotationParser) : Option SpecialTag :=
  findSpecial p.convention.special_tags SpecialFunction.partSeparator

/-- parser.py `AnnotationParser.parse_part`: each character must resolve in
the convention's plain-tag mapping; the first one that does not raises
`UnknownTagError(tag=ctag, file=self.filename)`; otherwise the outputs are
collected in input order. -/
def parse_part (tags : List (Char × Tag)) (file : Option Str) :
    Str → Except ParseError (List Str)
  | [] => .ok []
  | c :: rest =>
    match lookupAssoc tags c with
    | none => .error (.unknownTag c file)
    | some t =>
      match parse_part tags file rest with
      | .error e => .error e
      | .ok etags => .ok (t.output :: etags)

/-- The dict comprehension `{part: self.parse_part(part) for part in
compact_parts}` of parser.py line 90: `parse_part` runs on every part in
order (so the leftmost invalid part raises), and the keys collapse duplicates
with first-occurrence order. -/
def buildBaseParts (tags : List (Char × Tag)) (file : Option Str)
    (acc : List (Str × List Str)) : List Str → Except ParseError (List (Str × List Str))
  | [] => .ok acc
  | part :: rest =>
    match parse_part tags file part with
    | .error e => .error e
    | .ok v => buildBaseParts tags file (dictInsert acc part v) rest

/-- parser.py `AnnotationParser.make_comment_str`: the comment-marker output
followed by the comment text, `None` treated as the empty string. -/
def make_comment_str (cm : SpecialTag) (comment : Option Str) : Str :=
  cm.output ++ comment.getD []

/-- Python `str(comment)` for `comment: str | None` as used for the compact
field of a comment tier's part. -/
def pyStr : Option Str → Str
  | none => ("None").toList
  | some s => s

/-- parser.py `AnnotationParser.is_pure_comment_tier`: the tier's content is
exactly the single comment special tag. -/
def is_pure_comment_tier (cm : SpecialTag) (tier : Tier) : Bool :=
  tier.content.length = 1 && tier.content.map Prod.fst = [cm.input]

/-- parser.py `AnnotationParser.make_comment_tier`: one part of type COMMENT
holding the comment-marker string. -/
def make_comment_tier (conv : Convention) (ps cm : SpecialTag)
    (comment : Option Str) : AnnotationTier :=
  { separator := ps.output,
    parts := [{ compact := pyStr comment,
                separator := conv.options.tag_separator,
                expanded := [make_comment_str cm comment] }],
    type := .COMMENT }

/-- The inner loop of `make_general_tier` (parser.py lines 144-152) over the
tier's content in declared order: a character present in the part appends its
output; the comment character appends the comment string unconditionally. -/
def generalTierLists (cm : SpecialTag) (comment : Option Str) (base_part : Str) :
    List (Char × ConventionTag) → Str × List Str
  | [] => ([], [])
  | ct :: rest =>
    let tl := generalTierLists cm comment base_part rest
    let fromTag : Str × List Str :=
      if ct.1 ∈ base_part then ([ct.1], [ct.2.output]) else ([], [])
    let fromMarker : Str × List Str :=
      if ct.1 = cm.input then ([cm.input], [make_comment_str cm comment]) else ([], [])
    (fromTag.1 ++ fromMarker.1 ++ tl.1, fromTag.2 ++ fromMarker.2 ++ tl.2)

/-- One `AnnotationPart` of a general tier, built from one base part string. -/
def generalTierPart (conv : Convention) (cm : SpecialTag) (tier : Tier)
    (comment : Option Str) (base_part : Str) : AnnotationPart :=
  let lists := generalTierLists cm comment base_part tier.content
  { compact := lists.1, separator := conv.options.tag_separator,
    expanded := lists.2 }

/-- parser.py `AnnotationParser.make_general_tier`: one part per key of
`base_parts`, in iteration order. -/
def make_general_tier (conv : Convention) (cm ps : SpecialTag) (tier : Tier)
    (base_parts : List (Str × List Str)) (comment : Option Str) : AnnotationTier :=
  { separator := ps.output,
    parts := base_parts.map (fun bp => generalTierPart conv cm tier comment bp.1),
    type := .GENERAL }

/-- parser.py `AnnotationParser.make_tiers`: one entry per convention tier, a
comment tier for pure-comment tier conventions and a general tier otherwise. -/
def make_tiers (conv : Convention) (cm ps : SpecialTag)
    (base_parts : List (Str × List Str)) (comment : Option Str) :
    List (Str × AnnotationTier) :=
  conv.tiers.map (fun tkv =>
    (tkv.1,
      if is_pure_comment_tier cm tkv.2 then
        make_comment_tier conv ps cm comment
      else
        make_general_tier conv cm ps tkv.2 base_parts comment))

/-- parser.py `AnnotationParser.parse`: comment split, part split, per-part
validation, tier construction. Accessing an unset marker attribute raises. -/
def AnnotationParser.parse (p : AnnotationParser) (compact : Str) :
    Except ParseError AnnotationParse :=
  match p.commentMarker with
  | none => .error .attributeError
  | some cm =>
    let rc := commentSplit cm.input compact
    match p.partSeparator with
    | none => .error .attributeError
    | some ps =>
      match buildBaseParts p.convention.tags p.filename [] (splitOnChar ps.input rc.1) with
      | .error e => .error e
      | .ok base_parts =>
        .ok { convention := p.convention, compact := compact,
              tiers := make_tiers p.convention cm ps base_parts rc.2 }

/-! The worked example convention from the spec: plain tags `a` and `x`,
comment special tag `-` with empty output, part-separator special tag `+`
with output " / ", tag separator ",", and a tier `speaker` over `[a, x]`. -/

/-- Plain tag a mapping to "Researcher". -/
def exTagA : Tag :=
  { input := 'a', output := ("Researcher").toList }

/-- Plain tag x mapping to "Participant". -/
def exTagX : Tag :=
  { input := 'x', output := ("Participant").toList }

/-- Comment special tag `-` with empty output. -/
def exCommentTag : SpecialTag :=
  { input := '-', function := SpecialFunction.comment }

/-- Part-separator special tag `+` with output " / ". -/
def exPartSepTag : SpecialTag :=
  { input := '+', function := SpecialFunction.partSeparator,
    output := (" / ").toList }

/-- The example convention. -/
def exConvention : Convention :=
  { meta := { name := ("example").toList, version := ("1").toList,
              date := ("2022-01-01").toList },
    options := { compact_tier := ("compact").toList },
    special_tags := [('-', exCommentTag), ('+', exPartSepTag)],
    tags := [('a', exTagA), ('x', exTagX)],
    tiers := [(("speaker").toList,
               { name := ("speaker").toList,
                 content := [('a', ConventionTag.plain exTagA),
                             ('x', ConventionTag.plain exTagX)] })] }

/-- A parser bound to the example convention, with no source-file label. -/
def exParser : AnnotationParser :=
  { convention := exConvention }

/-- The joined text of one named tier of a parse result, `none` when the parse
failed or the tier is absent. -/
def parsedTierJoin (p : AnnotationParser) (compact : Str) (tname : Str) :
    Option Str :=
  match p.parse compact with
  | .error _ => none
  | .ok r => (lookupAssoc r.tiers tname).map AnnotationTier.join

/-- The number of parts of one named tier of a parse result. -/
def parsedTierPartCount (p : AnnotationParser) (compact : Str) (tname : Str) :
    Option Nat :=
  match p.parse compact with
  | .error _ => none
  | .ok r => (lookupAssoc r.tiers tname).map (fun t => t.parts.length)

/-- Plain tag b mapping to "B-out", used for the tag-order example. -/
def exTagB : Tag :=
  { input := 'b', output := ("B-out").toList }

/-- Plain tag c mapping to "C-out", used for the tag-order example. -/
def exTagC : Tag :=
  { input := 'c', output := ("C-out").toList }

/-- A tier declared over `[a, b, c]` in that order. -/
def exAbcTier : Tier :=
  { name := ("abc").toList,
    content := [('a', ConventionTag.plain exTagA),
                ('b', ConventionTag.plain exTagB),
                ('c', ConventionTag.plain exTagC)] }

/-- A pure-comment tier: content is exactly the comment special tag. -/
def exNotesTier : Tier :=
  { name := ("notes").toList,
    content := [('-', ConventionTag.special exCommentTag)] }

/-- A general tier whose content includes the comment special tag. -/
def exMainTier : Tier :=
  { name := ("main").toList,
    content := [('a', ConventionTag.plain exTagA),
                ('x', ConventionTag.plain exTagX),
                ('-', ConventionTag.special exCommentTag)] }

/-- The example convention enlarged with a pure-comment tier and a general
tier carrying the comment slot. -/
def exConvention2 : Convention :=
  { exConvention with
    tiers := exConvention.tiers ++
      [(("notes").toList, exNotesTier), (("main").toList, exMainTier)] }

/-- A parser bound to the enlarged example convention. -/
def exParser2 : AnnotationParser :=
  { convention := exConvention2 }

/-- A schema-valid convention document defining no special tag with function
comment (only a part separator). -/
def noCommentData : ConventionData :=
  { meta := exConvention.meta,
    options := exConvention.options,
    special_tags := [('+', { function := SpecialFunction.partSeparator,
                             output := (" / ").toList })],
    tags := [('a', { output := ("Researcher").toList })],
    tiers := [(("speaker").toList, ['a'])] }

/-- A schema-valid convention document defining two special tags with
function comment. -/
def twoCommentData : ConventionData :=
  { meta := exConvention.meta,
    options := exConvention.options,
    special_tags := [('-', { function := SpecialFunction.comment }),
                     ('~', { function := SpecialFunction.comment }),
                     ('+', { function := SpecialFunction.partSeparator,
                             output := (" / ").toList })],
    tags := [('a', { output := ("Researcher").toList })],
    tiers := [(("speaker").toList, ['a'])] }

/-- A schema-valid convention document in which tier t1 references the
undefined tag character z. -/
def badRefData : ConventionData :=
  { meta := exConvention.meta,
    options := exConvention.options,
    special_tags := [('-', { function := SpecialFunction.comment }),
                     ('+', { function := SpecialFunction.partSeparator })],
    tags := [('a', { output := ("Researcher").toList })],
    tiers := [(("t1").toList, ['a', 'z'])] }

/-! Auxiliary lemmas about the string helpers -/

theorem splitOnChar_ne_nil (c : Char) (s : Str) : splitOnChar c s ≠ [] := by
  induction s with
  | nil => simp [splitOnChar]
  | cons x rest ih =>
    simp only [splitOnChar]
    cases h : splitOnChar c rest with
    | nil => simp
    | cons s ss =>
      by_cases hx : x = c <;> simp [hx]

theorem splitOnChar_length (c : Char) (s : Str) :
    (splitOnChar c s).length = s.count c + 1 := by
  induction s with
  | nil => simp [splitOnChar]
  | cons x rest ih =>
    simp only [splitOnChar]
    split
    case h_1 heq => exact absurd heq (splitOnChar_ne_nil c rest)
    case h_2 s0 ss heq =>
      rw [heq] at ih
      by_cases hx : x = c
      · rw [if_pos hx, hx, List.count_cons_self]
        simp only [List.length_cons] at ih ⊢
        omega
      · rw [if_neg hx, List.count_cons_of_ne (Ne.symm hx)]
        simp only [List.length_cons] at ih ⊢
        omega

theorem splitOnChar_cons_eq (c x : Char) (rest : Str) (s0 : Str) (ss : List Str)
    (h : splitOnChar c rest = s0 :: ss) :
    splitOnChar c (x :: rest) = if x = c then [] :: s0 :: ss else (x :: s0) :: ss := by
  simp only [splitOnChar, h]

theorem splitOnChar_dest (c : Char) (rest : Str) :
    ∃ s0 ss, splitOnChar c rest = s0 :: ss := by
  cases h : splitOnChar c rest with
  | nil => exact absurd h (splitOnChar_ne_nil c rest)
  | cons a b => exact ⟨a, b, rfl⟩

theorem mem_of_mem_splitOnChar (c : Char) (s : Str) (seg : Str) (x : Char)
    (hseg : seg ∈ splitOnChar c s) (hx : x ∈ seg) : x ∈ s := by
  induction s generalizing seg with
  | nil =>
    simp [splitOnChar] at hseg
    subst hseg
    exact absurd hx (List.not_mem_nil x)
  | cons y rest ih =>
    obtain ⟨s0, ss, heq⟩ := splitOnChar_dest c rest
    rw [splitOnChar_cons_eq c y rest s0 ss heq] at hseg
    by_cases hy : y = c
    · rw [if_pos hy] at hseg
      rcases List.mem_cons.mp hseg with rfl | hseg2
      · exact absurd hx (List.not_mem_nil x)
      · exact List.mem_cons_of_mem y (ih seg (by rw [heq]; exact hseg2) hx)
    · rw [if_neg hy] at hseg
      rcases List.mem_cons.mp hseg with rfl | hseg2
      · rcases List.mem_cons.mp hx with rfl | hx2
        · exact List.mem_cons_self x rest
        · exact List.mem_cons_of_mem y
            (ih s0 (by rw [heq]; exact List.mem_cons_self s0 ss) hx2)
      · exact List.mem_cons_of_mem y
          (ih seg (by rw [heq]; exact List.mem_cons_of_mem s0 hseg2) hx)

theorem splitFirst_append (cm : Char) (r c : Str) (hr : cm ∉ r) :
    splitFirst cm (r ++ cm :: c) = (r, c) := by
  induction r with
  | nil => simp [splitFirst]
  | cons x rest ih =>
    have hx : x ≠ cm := fun hx => hr (hx ▸ List.mem_cons_self x rest)
    have hrest : cm ∉ rest := fun hm => hr (List.mem_cons_of_mem x hm)
    simp only [List.cons_append, splitFirst, if_neg hx, List.append_eq, ih hrest]

theorem splitFirst_fst_not_mem (cm : Char) (s : Str) :
    cm ∉ (splitFirst cm s).1 := by
  induction s with
  | nil => simp [splitFirst]
  | cons x rest ih =>
    simp only [splitFirst]
    by_cases hx : x = cm
    · simp [hx]
    · simp only [if_neg hx]
      intro hmem
      rcases hmem with _ | hmem
      · exact hx rfl
      · exact ih (by assumption)

theorem commentSplit_of_not_mem (cm : Char) (s : Str) (h : cm ∉ s) :
    commentSplit cm s = (s, none) := by
  simp [commentSplit, h]

theorem commentSplit_of_append (cm : Char) (r c : Str) (hr : cm ∉ r) :
    commentSplit cm (r ++ cm :: c) = (r, some c) := by
  have hmem : cm ∈ r ++ cm :: c := List.mem_append_right r (List.mem_cons_self cm c)
  simp [commentSplit, hmem, splitFirst_append cm r c hr]

theorem commentSplit_fst_not_mem (cm : Char) (s : Str) :
    cm ∉ (commentSplit cm s).1 := by
  by_cases h : cm ∈ s
  · simp only [commentSplit, if_pos h]
    exact splitFirst_fst_not_mem cm s
  · simp only [commentSplit, if_neg h]
    exact h

/-! Auxiliary lemmas about dict operations -/

theorem dictInsert_keys {α β : Type} [DecidableEq α] (m : List (α × β)) (k : α) (v : β) :
    (dictInsert m k v).map Prod.fst = insertKeyList (m.map Prod.fst) k := by
  unfold dictInsert insertKeyList
  by_cases h : k ∈ m.map Prod.fst
  · rw [if_pos h, if_pos h, List.map_map]
    apply List.map_congr_left
    intro kv _
    by_cases hk : kv.1 = k
    · simp [Function.comp, hk]
    · simp [Function.comp, hk]
  · rw [if_neg h, if_neg h, List.map_append]
    rfl

theorem dictInsert_forall {α β : Type} [DecidableEq α] {P : α × β → Prop}
    (m : List (α × β)) (k : α) (v : β)
    (hm : ∀ kv ∈ m, P kv) (hkv : P (k, v)) : ∀ kv ∈ dictInsert m k v, P kv := by
  intro kv hmem
  unfold dictInsert at hmem
  by_cases hc : k ∈ m.map Prod.fst
  · rw [if_pos hc] at hmem
    rw [List.mem_map] at hmem
    obtain ⟨kv0, hkv0, heq⟩ := hmem
    by_cases h : kv0.1 = k
    · rw [if_pos h] at heq; exact heq ▸ hkv
    · rw [if_neg h] at heq; exact heq ▸ hm kv0 hkv0
  · rw [if_neg hc] at hmem
    rcases List.mem_append.mp hmem with h | h
    · exact hm kv h
    · simp only [List.mem_singleton] at h; exact h ▸ hkv

theorem mem_foldl_insertKeyList {α : Type} [DecidableEq α] (l ks : List α) (x : α)
    (h : x ∈ l.foldl insertKeyList ks) : x ∈ ks ∨ x ∈ l := by
  induction l generalizing ks with
  | nil => exact .inl h
  | cons a rest ih =>
    rcases ih (insertKeyList ks a) h with h' | h'
    · unfold insertKeyList at h'
      by_cases ha : a ∈ ks
      · rw [if_pos ha] at h'; exact .inl h'
      · rw [if_neg ha] at h'
        rcases List.mem_append.mp h' with h2 | h2
        · exact .inl h2
        · simp only [List.mem_singleton] at h2
          exact .inr (h2 ▸ List.mem_cons_self a rest)
    · exact .inr (List.mem_cons_of_mem a h')

theorem foldl_insertKeyList_ne_nil {α : Type} [DecidableEq α] (l ks : List α)
    (h : ks ≠ [] ∨ l ≠ []) : l.foldl insertKeyList ks ≠ [] := by
  induction l generalizing ks with
  | nil =>
    rcases h with h | h
    · exact h
    · exact absurd rfl h
  | cons a rest ih =>
    apply ih
    left
    unfold insertKeyList
    by_cases ha : a ∈ ks
    · rw [if_pos ha]
      intro hk
      subst hk
      exact absurd ha (List.not_mem_nil a)
    · rw [if_neg ha]
      simp

/-! Auxiliary lemmas about per-part validation -/

theorem parse_part_ok_of_all (tags : List (Char × Tag)) (file : Option Str) (part : Str)
    (h : ∀ c ∈ part, (lookupAssoc tags c).isSome) :
    ∃ v, parse_part tags file part = .ok v := by
  induction part with
  | nil => exact ⟨[], rfl⟩
  | cons c rest ih =>
    have hc := h c (List.mem_cons_self c rest)
    obtain ⟨t, ht⟩ := Option.isSome_iff_exists.mp hc
    obtain ⟨v, hv⟩ := ih (fun c2 hc2 => h c2 (List.mem_cons_of_mem c hc2))
    exact ⟨t.output :: v, by simp only [parse_part, ht, hv]⟩

theorem parse_part_err_of_exists (tags : List (Char × Tag)) (file : Option Str)
    (part : Str) (h : ∃ c ∈ part, lookupAssoc tags c = none) :
    ∃ c ∈ part, lookupAssoc tags c = none ∧
      parse_part tags file part = .error (.unknownTag c file) := by
  induction part with
  | nil => simp at h
  | cons c rest ih =>
    cases hc : lookupAssoc tags c with
    | none =>
      exact ⟨c, List.mem_cons_self c rest, hc, by simp only [parse_part, hc]⟩
    | some t =>
      have hrest : ∃ c2 ∈ rest, lookupAssoc tags c2 = none := by
        obtain ⟨c2, hc2, hnone⟩ := h
        rcases List.mem_cons.mp hc2 with rfl | hmem
        · rw [hc] at hnone; cases hnone
        · exact ⟨c2, hmem, hnone⟩
      obtain ⟨c2, hmem, hnone, herr⟩ := ih hrest
      refine ⟨c2, List.mem_cons_of_mem c hmem, hnone, ?_⟩
      simp only [parse_part, hc, herr]

theorem buildBaseParts_keys (tags : List (Char × Tag)) (file : Option Str)
    (parts : List Str) (acc m : List (Str × List Str))
    (h : buildBaseParts tags file acc parts = .ok m) :
    m.map Prod.fst = parts.foldl insertKeyList (acc.map Prod.fst) := by
  induction parts generalizing acc with
  | nil =>
    simp only [buildBaseParts] at h
    cases h
    rfl
  | cons part rest ih =>
    simp only [buildBaseParts] at h
    cases hp : parse_part tags file part with
    | error e => rw [hp] at h; cases h
    | ok v =>
      simp only [hp] at h
      rw [ih (dictInsert acc part v) h, List.foldl_cons, dictInsert_keys]

theorem buildBaseParts_ok_of_all (tags : List (Char × Tag)) (file : Option Str)
    (parts : List Str) (acc : List (Str × List Str))
    (h : ∀ seg ∈ parts, ∀ c ∈ seg, (lookupAssoc tags c).isSome) :
    ∃ m, buildBaseParts tags file acc parts = .ok m := by
  induction parts generalizing acc with
  | nil => exact ⟨acc, rfl⟩
  | cons part rest ih =>
    obtain ⟨v, hv⟩ :=
      parse_part_ok_of_all tags file part (h part (List.mem_cons_self part rest))
    obtain ⟨m, hm⟩ :=
      ih (dictInsert acc part v) (fun s hs => h s (List.mem_cons_of_mem part hs))
    exact ⟨m, by simp only [buildBaseParts, hv, hm]⟩

theorem buildBaseParts_err_of_exists (tags : List (Char × Tag)) (file : Option Str)
    (parts : List Str) (acc : List (Str × List Str))
    (h : ∃ seg ∈ parts, ∃ c ∈ seg, lookupAssoc tags c = none) :
    ∃ c, lookupAssoc tags c = none ∧ (∃ seg ∈ parts, c ∈ seg) ∧
      buildBaseParts tags file acc parts = .error (.unknownTag c file) := by
  induction parts generalizing acc with
  | nil => simp at h
  | cons part rest ih =>
    by_cases hpart : ∃ c ∈ part, lookupAssoc tags c = none
    · obtain ⟨c, hmem, hnone, herr⟩ := parse_part_err_of_exists tags file part hpart
      exact ⟨c, hnone, ⟨part, List.mem_cons_self part rest, hmem⟩,
        by simp only [buildBaseParts, herr]⟩
    · have hall : ∀ c ∈ part, (lookupAssoc tags c).isSome := by
        intro c hc
        cases hna : lookupAssoc tags c with
        | none => exact absurd ⟨c, hc, hna⟩ hpart
        | some t => simp
      obtain ⟨v, hv⟩ := parse_part_ok_of_all tags file part hall
      have hrest : ∃ seg ∈ rest, ∃ c ∈ seg, lookupAssoc tags c = none := by
        obtain ⟨seg, hseg, hcc⟩ := h
        rcases List.mem_cons.mp hseg with rfl | hmem
        · exact absurd hcc hpart
        · exact ⟨seg, hmem, hcc⟩
      obtain ⟨c, hnone, ⟨seg, hseg, hcs⟩, herr⟩ := ih (dictInsert acc part v) hrest
      exact ⟨c, hnone, ⟨seg, List.mem_cons_of_mem part hseg, hcs⟩,
        by simp only [buildBaseParts, hv, herr]⟩

/-! Auxiliary lemmas about parse and general-tier construction -/

theorem parse_ok_elim (p : AnnotationParser) (cm ps : SpecialTag)
    (hcm : p.commentMarker = some cm) (hps : p.partSeparator = some ps)
    (compact : Str) (res : AnnotationParse) (h : p.parse compact = .ok res) :
    ∃ base_parts,
      buildBaseParts p.convention.tags p.filename []
        (splitOnChar ps.input (commentSplit cm.input compact).1) = .ok base_parts ∧
      res = ⟨p.convention, compact,
        make_tiers p.convention cm ps base_parts (commentSplit cm.input compact).2⟩ := by
  simp only [AnnotationParser.parse, hcm, hps] at h
  cases hb : buildBaseParts p.convention.tags p.filename []
      (splitOnChar ps.input (commentSplit cm.input compact).1) with
  | error e =>
    rw [hb] at h
    cases h
  | ok bp =>
    rw [hb] at h
    injection h with h
    exact ⟨bp, rfl, h.symm⟩

theorem parse_err_elim (p : AnnotationParser) (cm ps : SpecialTag)
    (hcm : p.commentMarker = some cm) (hps : p.partSeparator = some ps)
    (compact : Str) (e : ParseError)
    (h : buildBaseParts p.convention.tags p.filename []
        (splitOnChar ps.input (commentSplit cm.input compact).1) = .error e) :
    p.parse compact = .error e := by
  simp only [AnnotationParser.parse, hcm, hps, h]

theorem generalTierLists_no_marker (cm : SpecialTag) (comment : Option Str)
    (base_part : Str) (content : List (Char × ConventionTag))
    (h : ∀ ct ∈ content, ct.1 ≠ cm.input) :
    (generalTierLists cm comment base_part content).2
      = (content.filter (fun ct => decide (ct.1 ∈ base_part))).map
          (fun ct => ct.2.output) := by
  induction content with
  | nil => rfl
  | cons ct rest ih =>
    have hct : ct.1 ≠ cm.input := h ct (List.mem_cons_self ct rest)
    have hrest := ih (fun ct2 h2 => h ct2 (List.mem_cons_of_mem ct h2))
    simp only [generalTierLists, if_neg hct]
    by_cases hm : ct.1 ∈ base_part
    · rw [if_pos hm, List.filter_cons_of_pos (by simpa using hm), List.map_cons, ← hrest]
      simp
    · rw [if_neg hm, List.filter_cons_of_neg (by simpa using hm), ← hrest]
      simp

theorem generalTierLists_marker (cm : SpecialTag) (comment : Option Str)
    (base_part : Str) (hbp : cm.input ∉ base_part)
    (content : List (Char × ConventionTag)) :
    (generalTierLists cm comment base_part content).1.count cm.input
        = (content.map Prod.fst).count cm.input ∧
    (0 < (content.map Prod.fst).count cm.input →
      make_comment_str cm comment ∈ (generalTierLists cm comment base_part content).2) := by
  induction content with
  | nil => simp [generalTierLists]
  | cons ct rest ih =>
    simp only [generalTierLists]
    by_cases hmarker : ct.1 = cm.input
    · have hnm : ct.1 ∉ base_part := fun hmem => hbp (hmarker ▸ hmem)
      rw [if_neg hnm, if_pos hmarker]
      constructor
      · simp only [List.nil_append, List.cons_append, List.count_cons, List.map_cons,
          hmarker, if_pos rfl]
        simp [ih.1]
      · intro _
        simp
    · rw [if_neg hmarker]
      have hcount :
          ((if ct.1 ∈ base_part then ([ct.1], [ct.2.output]) else (([] : Str), ([] : List Str))).1
            ++ [] ++ (generalTierLists cm comment base_part rest).1).count cm.input
          = (generalTierLists cm comment base_part rest).1.count cm.input := by
        by_cases hm : ct.1 ∈ base_part
        · rw [if_pos hm]
          simp [List.count_cons, hmarker]
        · rw [if_neg hm]
          simp
      constructor
      · rw [hcount, List.map_cons, List.count_cons, if_neg (by simpa using hmarker)]
        simpa using ih.1
      · intro hpos
        have hpos2 : 0 < (rest.map Prod.fst).count cm.input := by
          rw [List.map_cons, List.count_cons, if_neg (by simpa using hmarker)] at hpos
          simpa using hpos
        have := ih.2 hpos2
        by_cases hm : ct.1 ∈ base_part
        · rw [if_pos hm]
          simpa using Or.inr this
        · rw [if_neg hm]
          simpa using this

/-! Claims -/

/-- C1: end-to-end example. With the example convention (plain tags a and x,
comment tag `-`, part separator `+` with output " / ", tag separator ","),
parsing "ax-coughing" splits into remainder "ax" and comment "coughing",
yields the single part "ax", and renders tier speaker as
"Researcher,Participant"; parsing "a+x" renders tier speaker as
"Researcher / Participant". -/
theorem C1_end_to_end :
    commentSplit exCommentTag.input (("ax-coughing").toList)
      = (("ax").toList, some (("coughing").toList)) ∧
    splitOnChar exPartSepTag.input (("ax").toList) = [("ax").toList] ∧
    parsedTierJoin exParser (("ax-coughing").toList) (("speaker").toList)
      = some (("Researcher,Participant").toList) ∧
    parsedTierJoin exParser (("a+x").toList) (("speaker").toList)
      = some (("Researcher / Participant").toList) := by
  decide

/-- C2 counterexample: the compact string "a+a" has one part-separator
occurrence, so the claim demands two AnnotationParts on tier speaker, but the
dict comprehension over the parts collapses the duplicate segments and the
tier holds exactly one part. -/
theorem C2_counterexample :
    (splitOnChar exPartSepTag.input (("a+a").toList)).length = 2 ∧
    parsedTierPartCount exParser (("a+a").toList) (("speaker").toList) = some 1 := by
  decide

/-- C2 amended: the remainder splits into count+1 separator-delimited
segments, but because the parsed parts are keyed by segment string, duplicate
identical segments collapse: on every successful parse, every general tier of
the result contains exactly one AnnotationPart per distinct segment, in order
of first occurrence. -/
theorem C2_amended_distinct_parts (p : AnnotationParser) (cm ps : SpecialTag)
    (hcm : p.commentMarker = some cm) (hps : p.partSeparator = some ps)
    (compact : Str) (res : AnnotationParse) (h : p.parse compact = .ok res) :
    (splitOnChar ps.input (commentSplit cm.input compact).1).length
        = (commentSplit cm.input compact).1.count ps.input + 1 ∧
    ∀ tname tprops, (tname, tprops) ∈ p.convention.tiers →
      is_pure_comment_tier cm tprops = false →
      ((tname,
        { separator := ps.output,
          parts :=
            (dedupFirstOcc
                (splitOnChar ps.input (commentSplit cm.input compact).1)).map
              (generalTierPart p.convention cm tprops
                (commentSplit cm.input compact).2),
          type := AnnotationTierType.GENERAL }) : Str × AnnotationTier)
        ∈ res.tiers := by
  obtain ⟨bp, hbp, hres⟩ := parse_ok_elim p cm ps hcm hps compact res h
  refine ⟨splitOnChar_length _ _, ?_⟩
  intro tname tprops ht hpure
  subst hres
  have hkeys : bp.map Prod.fst
      = dedupFirstOcc (splitOnChar ps.input (commentSplit cm.input compact).1) :=
    buildBaseParts_keys _ _ _ _ _ hbp
  have htier : make_general_tier p.convention cm ps tprops bp
        (commentSplit cm.input compact).2
      = { separator := ps.output,
          parts :=
            (dedupFirstOcc
                (splitOnChar ps.input (commentSplit cm.input compact).1)).map
              (generalTierPart p.convention cm tprops
                (commentSplit cm.input compact).2),
          type := AnnotationTierType.GENERAL } := by
    unfold make_general_tier
    rw [← hkeys, List.map_map]
    rfl
  rw [← htier]
  unfold make_tiers
  exact List.mem_map.mpr ⟨(tname, tprops), ht, by simp [hpure]⟩

/-- Witness for C2 amended on the concrete input "a+a". -/
theorem C2_amended_witness :
    ∃ res, exParser.parse (("a+a").toList) = .ok res ∧
      (splitOnChar exPartSepTag.input
          (commentSplit exCommentTag.input (("a+a").toList)).1).length
        = (commentSplit exCommentTag.input (("a+a").toList)).1.count
            exPartSepTag.input + 1 := by
  have hok : (exParser.parse (("a+a").toList)).isOk = true := by decide
  cases hres : exParser.parse (("a+a").toList) with
  | error e => rw [hres] at hok; simp [Except.isOk, Except.toBool] at hok
  | ok res =>
    exact ⟨res, rfl,
      (C2_amended_distinct_parts exParser exCommentTag exPartSepTag (by decide)
        (by decide) (("a+a").toList) res hres).1⟩

/-- C4: unknown-tag failure is all-or-nothing. If any character of any
separator-delimited segment of the remainder fails to resolve in the plain-tag
mapping, parse raises UnknownTagError carrying an offending character and the
parser's source-file label, and no result is produced. -/
theorem C4_unknown_tag_failure (p : AnnotationParser) (cm ps : SpecialTag)
    (hcm : p.commentMarker = some cm) (hps : p.partSeparator = some ps)
    (compact : Str)
    (h : ∃ seg ∈ splitOnChar ps.input (commentSplit cm.input compact).1,
          ∃ c ∈ seg, lookupAssoc p.convention.tags c = none) :
    ∃ c, lookupAssoc p.convention.tags c = none ∧
      (∃ seg ∈ splitOnChar ps.input (commentSplit cm.input compact).1, c ∈ seg) ∧
      p.parse compact = .error (ParseError.unknownTag c p.filename) := by
  obtain ⟨c, hnone, hmem, herr⟩ :=
    buildBaseParts_err_of_exists p.convention.tags p.filename _ [] h
  exact ⟨c, hnone, hmem, parse_err_elim p cm ps hcm hps compact _ herr⟩

/-- Witness for C4 on the concrete input "az" (z is not a plain tag). -/
theorem C4_witness :
    ∃ c, lookupAssoc exParser.convention.tags c = none ∧
      (∃ seg ∈ splitOnChar exPartSepTag.input
          (commentSplit exCommentTag.input (("az").toList)).1, c ∈ seg) ∧
      exParser.parse (("az").toList)
        = .error (ParseError.unknownTag c exParser.filename) :=
  C4_unknown_tag_failure exParser exCommentTag exPartSepTag (by decide) (by decide)
    (("az").toList) (by decide)

/-- C5: comment split correctness. Without the marker the whole compact string
is the remainder and there is no comment; with the marker the split is at the
first occurrence, the comment is taken verbatim, and whether parse succeeds
depends only on the remainder — the comment is never tag-decoded. -/
theorem C5_comment_split (p : AnnotationParser) (cm ps : SpecialTag)
    (hcm : p.commentMarker = some cm) (hps : p.partSeparator = some ps)
    (compact r c : Str) :
    (cm.input ∉ compact → commentSplit cm.input compact = (compact, none)) ∧
    (compact = r ++ cm.input :: c → cm.input ∉ r →
      commentSplit cm.input compact = (r, some c) ∧
      (p.parse compact).isOk = (p.parse r).isOk) := by
  constructor
  · exact commentSplit_of_not_mem cm.input compact
  · rintro rfl hr
    refine ⟨commentSplit_of_append cm.input r c hr, ?_⟩
    simp only [AnnotationParser.parse, hcm, hps,
      commentSplit_of_append cm.input r c hr, commentSplit_of_not_mem cm.input r hr]
    cases hb : buildBaseParts p.convention.tags p.filename []
        (splitOnChar ps.input r) with
    | error e => rfl
    | ok bp => rfl

/-- Witness for C5 on the concrete split of "ax-coughing". -/
theorem C5_witness :
    commentSplit exCommentTag.input (("ax-coughing").toList)
        = (("ax").toList, some (("coughing").toList)) ∧
    (exParser.parse (("ax-coughing").toList)).isOk
        = (exParser.parse (("ax").toList)).isOk :=
  (C5_comment_split exParser exCommentTag exPartSepTag (by decide) (by decide)
    (("ax-coughing").toList) (("ax").toList) (("coughing").toList)).2
    (by decide) (by decide)

/-- C7: tag-order determinism. For a general tier whose declared content does
not contain the comment character, the expanded fragments of a part are the
outputs of the content entries whose character occurs in the part, in the
tier's declared content order regardless of the order of the part's
characters. -/
theorem C7_tag_order (conv : Convention) (cm : SpecialTag) (tier : Tier)
    (comment : Option Str) (base_part : Str)
    (h : ∀ ct ∈ tier.content, ct.1 ≠ cm.input) :
    (generalTierPart conv cm tier comment base_part).expanded
      = (tier.content.filter (fun ct => decide (ct.1 ∈ base_part))).map
          (fun ct => ct.2.output) :=
  generalTierLists_no_marker cm comment base_part tier.content h

/-- Witness for C7: tier declared over a, b, c and the part "ca" expand to
the a-output followed by the c-output. -/
theorem C7_witness :
    (generalTierPart exConvention exCommentTag exAbcTier none
        (("ca").toList)).expanded
      = [exTagA.output, exTagC.output] := by
  rw [C7_tag_order exConvention exCommentTag exAbcTier none (("ca").toList)
    (by decide)]
  decide

/-- C6: pure-comment tier behavior. For every successful parse against a
convention with a tier whose declared content is exactly the single comment
special tag, that tier of the result has type COMMENT and consists of exactly
one AnnotationPart whose expanded content is the comment-marker output
concatenated with the comment text (the marker output alone when no comment
is present). -/
theorem C6_pure_comment_tier (p : AnnotationParser) (cm ps : SpecialTag)
    (hcm : p.commentMarker = some cm) (hps : p.partSeparator = some ps)
    (compact : Str) (res : AnnotationParse) (h : p.parse compact = .ok res)
    (tname : Str) (tprops : Tier) (ht : (tname, tprops) ∈ p.convention.tiers)
    (hpure : is_pure_comment_tier cm tprops = true) :
    ∃ tier, ((tname, tier) : Str × AnnotationTier) ∈ res.tiers ∧
      tier.type = AnnotationTierType.COMMENT ∧
      tier.parts.map AnnotationPart.expanded
        = [[cm.output ++ ((commentSplit cm.input compact).2.getD [])]] := by
  obtain ⟨bp, hbp, hres⟩ := parse_ok_elim p cm ps hcm hps compact res h
  subst hres
  refine ⟨make_comment_tier p.convention ps cm (commentSplit cm.input compact).2,
    ?_, rfl, ?_⟩
  · unfold make_tiers
    exact List.mem_map.mpr ⟨(tname, tprops), ht, by simp [hpure]⟩
  · simp [make_comment_tier, make_comment_str]

/-- Witness for C6: parsing "a-hi" against the enlarged example convention;
its notes tier is a pure-comment tier. -/
theorem C6_witness :
    ∃ res, exParser2.parse (("a-hi").toList) = .ok res ∧
      ∃ tier, (((("notes").toList, tier)) : Str × AnnotationTier) ∈ res.tiers ∧
        tier.type = AnnotationTierType.COMMENT ∧
        tier.parts.map AnnotationPart.expanded
          = [[exCommentTag.output ++
              ((commentSplit exCommentTag.input (("a-hi").toList)).2.getD [])]] := by
  have hok : (exParser2.parse (("a-hi").toList)).isOk = true := by decide
  cases hres : exParser2.parse (("a-hi").toList) with
  | error e => rw [hres] at hok; simp [Except.isOk, Except.toBool] at hok
  | ok res =>
    exact ⟨res, rfl,
      C6_pure_comment_tier exParser2 exCommentTag exPartSepTag (by decide)
        (by decide) (("a-hi").toList) res hres (("notes").toList) exNotesTier
        (by decide) (by decide)⟩

/-- C8: unconditional comment slot in general tiers. For every successful
parse, every general tier whose declared content contains the comment
character (once, as dict keys are unique) gets, in every one of its parts,
the comment-marker output concatenated with the comment text (empty when no
comment is present) among the expanded fragments — exactly once per part, as
witnessed by the part's compact string containing the comment character
exactly once — and the tier always has at least one part. -/
theorem C8_unconditional_comment_slot (p : AnnotationParser) (cm ps : SpecialTag)
    (hcm : p.commentMarker = some cm) (hps : p.partSeparator = some ps)
    (compact : Str) (res : AnnotationParse) (h : p.parse compact = .ok res)
    (tname : Str) (tprops : Tier) (ht : (tname, tprops) ∈ p.convention.tiers)
    (hcount : (tprops.content.map Prod.fst).count cm.input = 1)
    (hpure : is_pure_comment_tier cm tprops = false) :
    ∃ tier, ((tname, tier) : Str × AnnotationTier) ∈ res.tiers ∧
      tier.parts ≠ [] ∧
      ∀ part ∈ tier.parts,
        (cm.output ++ ((commentSplit cm.input compact).2.getD [])) ∈ part.expanded ∧
        part.compact.count cm.input = 1 := by
  obtain ⟨bp, hbp, hres⟩ := parse_ok_elim p cm ps hcm hps compact res h
  subst hres
  have hkeys : bp.map Prod.fst
      = dedupFirstOcc (splitOnChar ps.input (commentSplit cm.input compact).1) :=
    buildBaseParts_keys _ _ _ _ _ hbp
  refine ⟨make_general_tier p.convention cm ps tprops bp
      (commentSplit cm.input compact).2, ?_, ?_, ?_⟩
  · unfold make_tiers
    exact List.mem_map.mpr ⟨(tname, tprops), ht, by simp [hpure]⟩
  · unfold make_general_tier
    simp only [ne_eq, List.map_eq_nil_iff]
    intro hnil
    have hmapnil : bp.map Prod.fst = [] := by rw [hnil]; rfl
    rw [hkeys] at hmapnil
    exact foldl_insertKeyList_ne_nil _ []
      (Or.inr (splitOnChar_ne_nil ps.input (commentSplit cm.input compact).1)) hmapnil
  · intro part hpart
    simp only [make_general_tier, List.mem_map] at hpart
    obtain ⟨kv, hkv, hpeq⟩ := hpart
    have hk : kv.1 ∈ bp.map Prod.fst := List.mem_map_of_mem Prod.fst hkv
    rw [hkeys] at hk
    rcases mem_foldl_insertKeyList _ [] kv.1 hk with h0 | hseg
    · exact absurd h0 (List.not_mem_nil kv.1)
    · have hnotin : cm.input ∉ kv.1 := by
        intro hmem
        exact commentSplit_fst_not_mem cm.input compact
          (mem_of_mem_splitOnChar ps.input (commentSplit cm.input compact).1
            kv.1 cm.input hseg hmem)
      obtain ⟨hcnt, hmem⟩ := generalTierLists_marker cm
        (commentSplit cm.input compact).2 kv.1 hnotin tprops.content
      subst hpeq
      constructor
      · have := hmem (by rw [hcount]; norm_num)
        simpa [generalTierPart, make_comment_str] using this
      · simp only [generalTierPart]
        rw [hcnt, hcount]

/-- Witness for C8: parsing "a+x-hi" against the enlarged example convention;
its main tier carries the comment character and has two parts. -/
theorem C8_witness :
    ∃ res, exParser2.parse (("a+x-hi").toList) = .ok res ∧
      ∃ tier, (((("main").toList, tier)) : Str × AnnotationTier) ∈ res.tiers ∧
        tier.parts ≠ [] ∧
        ∀ part ∈ tier.parts,
          (exCommentTag.output ++
            ((commentSplit exCommentTag.input (("a+x-hi").toList)).2.getD []))
            ∈ part.expanded ∧
          part.compact.count exCommentTag.input = 1 := by
  have hok : (exParser2.parse (("a+x-hi").toList)).isOk = true := by decide
  cases hres : exParser2.parse (("a+x-hi").toList) with
  | error e => rw [hres] at hok; simp [Except.isOk, Except.toBool] at hok
  | ok res =>
    exact ⟨res, rfl,
      C8_unconditional_comment_slot exParser2 exCommentTag exPartSepTag (by decide)
        (by decide) (("a+x-hi").toList) res hres (("main").toList) exMainTier
        (by decide) (by decide) (by decide)⟩

theorem generalTierLists_nil_base (cm : SpecialTag) (comment : Option Str)
    (content : List (Char × ConventionTag)) :
    (generalTierLists cm comment [] content).2
      = List.replicate ((content.map Prod.fst).count cm.input)
          (make_comment_str cm comment) := by
  induction content with
  | nil => simp [generalTierLists]
  | cons ct rest ih =>
    simp only [generalTierLists, if_neg (List.not_mem_nil ct.1), List.nil_append]
    by_cases hm : ct.1 = cm.input
    · rw [if_pos hm, List.map_cons, List.count_cons, if_pos (by simpa using hm)]
      simp [List.replicate_succ, ih]
    · rw [if_neg hm, List.map_cons, List.count_cons, if_neg (by simpa using hm)]
      simpa using ih

/-- C10: the empty compact string parses successfully. The part split yields
exactly one empty part; every general tier whose declared content avoids the
comment character joins to the empty string; a general tier containing the
comment character once, and a pure-comment tier, join to exactly the
comment-marker output. -/
theorem C10_empty_compact (p : AnnotationParser) (cm ps : SpecialTag)
    (hcm : p.commentMarker = some cm) (hps : p.partSeparator = some ps) :
    ∃ res, p.parse [] = .ok res ∧
      splitOnChar ps.input [] = [[]] ∧
      List.Forall₂
        (fun tc tr => tc.1 = tr.1 ∧
          (is_pure_comment_tier cm tc.2 = true →
            tr.2.type = AnnotationTierType.COMMENT ∧ tr.2.join = cm.output) ∧
          (is_pure_comment_tier cm tc.2 = false →
            tr.2.parts.length = 1 ∧
            ((tc.2.content.map Prod.fst).count cm.input = 0 → tr.2.join = []) ∧
            ((tc.2.content.map Prod.fst).count cm.input = 1 → tr.2.join = cm.output)))
        p.convention.tiers res.tiers := by
  have hparse : p.parse []
      = .ok ⟨p.convention, [], make_tiers p.convention cm ps [([], [])] none⟩ := by
    simp only [AnnotationParser.parse, hcm, hps]
    rfl
  refine ⟨_, hparse, rfl, ?_⟩
  unfold make_tiers
  rw [List.forall₂_map_right_iff, List.forall₂_same]
  intro tkv htkv
  refine ⟨rfl, ?_, ?_⟩
  · intro hpure
    rw [if_pos hpure]
    refine ⟨rfl, ?_⟩
    simp [make_comment_tier, AnnotationTier.join, AnnotationPart.join, joinSep,
      make_comment_str]
  · intro hpure
    rw [if_neg (by simp [hpure])]
    refine ⟨rfl, ?_, ?_⟩
    · intro hzero
      have hexp := generalTierLists_nil_base cm none tkv.2.content
      rw [hzero] at hexp
      simp only [List.replicate_zero] at hexp
      simp [make_general_tier, AnnotationTier.join, AnnotationPart.join,
        generalTierPart, joinSep, hexp]
    · intro hone
      have hexp := generalTierLists_nil_base cm none tkv.2.content
      rw [hone] at hexp
      simp only [List.replicate_one] at hexp
      simp [make_general_tier, AnnotationTier.join, AnnotationPart.join,
        generalTierPart, joinSep, hexp, make_comment_str]

/-- Witness for C10 on the enlarged example convention. -/
theorem C10_witness :
    ∃ res, exParser2.parse [] = .ok res ∧
      splitOnChar exPartSepTag.input [] = [[]] ∧
      List.Forall₂
        (fun tc tr => tc.1 = tr.1 ∧
          (is_pure_comment_tier exCommentTag tc.2 = true →
            tr.2.type = AnnotationTierType.COMMENT ∧ tr.2.join = exCommentTag.output) ∧
          (is_pure_comment_tier exCommentTag tc.2 = false →
            tr.2.parts.length = 1 ∧
            ((tc.2.content.map Prod.fst).count exCommentTag.input = 0 →
              tr.2.join = []) ∧
            ((tc.2.content.map Prod.fst).count exCommentTag.input = 1 →
              tr.2.join = exCommentTag.output)))
        exParser2.convention.tiers res.tiers :=
  C10_empty_compact exParser2 exCommentTag exPartSepTag (by decide) (by decide)

/-! Auxiliary lemmas about convention loading -/

theorem buildTierTags_ok_of_all (tags : List (Char × Tag))
    (sts : List (Char × SpecialTag)) (tl : Str) (refs : List Char)
    (hall : ∀ c ∈ refs, (chainLookup tags sts c).isSome)
    (acc : List (Char × ConventionTag)) :
    ∃ content, buildTierTags tags sts tl acc refs = .ok content := by
  induction refs generalizing acc with
  | nil => exact ⟨acc, rfl⟩
  | cons c rest ih =>
    obtain ⟨t, ht⟩ := Option.isSome_iff_exists.mp (hall c (List.mem_cons_self c rest))
    obtain ⟨content, hc⟩ :=
      ih (fun c2 h2 => hall c2 (List.mem_cons_of_mem c h2)) (dictInsert acc c t)
    exact ⟨content, by simp only [buildTierTags, ht, hc]⟩

theorem buildTierTags_err_of_exists (tags : List (Char × Tag))
    (sts : List (Char × SpecialTag)) (tl : Str) (refs : List Char)
    (h : ∃ c ∈ refs, chainLookup tags sts c = none)
    (acc : List (Char × ConventionTag)) :
    ∃ c ∈ refs, chainLookup tags sts c = none ∧
      buildTierTags tags sts tl acc refs = .error (.keyError tl c) := by
  induction refs generalizing acc with
  | nil => simp at h
  | cons c rest ih =>
    cases hc : chainLookup tags sts c with
    | none =>
      exact ⟨c, List.mem_cons_self c rest, hc, by simp only [buildTierTags, hc]⟩
    | some t =>
      have hrest : ∃ c2 ∈ rest, chainLookup tags sts c2 = none := by
        obtain ⟨c2, h2, hn⟩ := h
        rcases List.mem_cons.mp h2 with rfl | hm
        · rw [hc] at hn; cases hn
        · exact ⟨c2, hm, hn⟩
      obtain ⟨c2, hm, hn, he⟩ := ih hrest (dictInsert acc c t)
      exact ⟨c2, List.mem_cons_of_mem c hm, hn, by simp only [buildTierTags, hc, he]⟩

theorem buildTierTags_sound (tags : List (Char × Tag))
    (sts : List (Char × SpecialTag)) (tl : Str) (refs : List Char)
    (acc content : List (Char × ConventionTag))
    (h : buildTierTags tags sts tl acc refs = .ok content)
    (hacc : ∀ kv ∈ acc, chainLookup tags sts kv.1 = some kv.2) :
    ∀ kv ∈ content, chainLookup tags sts kv.1 = some kv.2 := by
  induction refs generalizing acc with
  | nil =>
    simp only [buildTierTags] at h
    injection h with h
    exact h ▸ hacc
  | cons c rest ih =>
    cases hc : chainLookup tags sts c with
    | none =>
      simp only [buildTierTags, hc] at h
      cases h
    | some t =>
      simp only [buildTierTags, hc] at h
      exact ih (dictInsert acc c t) h (dictInsert_forall _ _ _ hacc hc)

theorem buildTiers_ok_of_all (tags : List (Char × Tag))
    (sts : List (Char × SpecialTag)) (tiersData : List (Str × List Char))
    (acc : List (Str × Tier))
    (hall : ∀ tkv ∈ tiersData, ∀ c ∈ tkv.2, (chainLookup tags sts c).isSome) :
    ∃ tiers, buildTiers tags sts acc tiersData = .ok tiers := by
  induction tiersData generalizing acc with
  | nil => exact ⟨acc, rfl⟩
  | cons tkv rest ih =>
    obtain ⟨content, hc⟩ := buildTierTags_ok_of_all tags sts tkv.1 tkv.2
      (hall tkv (List.mem_cons_self tkv rest)) []
    obtain ⟨tiers, hts⟩ := ih (dictInsert acc tkv.1 (Tier.mk tkv.1 content))
      (fun t h2 => hall t (List.mem_cons_of_mem tkv h2))
    exact ⟨tiers, by simp only [buildTiers, hc, hts]⟩

theorem buildTiers_err_of_exists (tags : List (Char × Tag))
    (sts : List (Char × SpecialTag)) (tiersData : List (Str × List Char))
    (h : ∃ tkv ∈ tiersData, ∃ c ∈ tkv.2, chainLookup tags sts c = none)
    (acc : List (Str × Tier)) :
    ∃ tl c, (∃ refs, (tl, refs) ∈ tiersData ∧ c ∈ refs) ∧
      chainLookup tags sts c = none ∧
      buildTiers tags sts acc tiersData = .error (.keyError tl c) := by
  induction tiersData generalizing acc with
  | nil => simp at h
  | cons tkv rest ih =>
    by_cases hhead : ∃ c ∈ tkv.2, chainLookup tags sts c = none
    · obtain ⟨c, hm, hn, he⟩ := buildTierTags_err_of_exists tags sts tkv.1 tkv.2 hhead []
      exact ⟨tkv.1, c, ⟨tkv.2, List.mem_cons_self tkv rest, hm⟩, hn,
        by simp only [buildTiers, he]⟩
    · have hallhead : ∀ c ∈ tkv.2, (chainLookup tags sts c).isSome := by
        intro c hc
        cases hn : chainLookup tags sts c with
        | none => exact absurd ⟨c, hc, hn⟩ hhead
        | some t => simp
      obtain ⟨content, hc⟩ := buildTierTags_ok_of_all tags sts tkv.1 tkv.2 hallhead []
      have hrest : ∃ t ∈ rest, ∃ c ∈ t.2, chainLookup tags sts c = none := by
        obtain ⟨t, ht2, hcc⟩ := h
        rcases List.mem_cons.mp ht2 with rfl | hm
        · exact absurd hcc hhead
        · exact ⟨t, hm, hcc⟩
      obtain ⟨tl, c, ⟨refs, hmem, hcm⟩, hn, he⟩ :=
        ih hrest (dictInsert acc tkv.1 (Tier.mk tkv.1 content))
      exact ⟨tl, c, ⟨refs, List.mem_cons_of_mem tkv hmem, hcm⟩, hn,
        by simp only [buildTiers, hc, he]⟩

theorem buildTiers_sound (tags : List (Char × Tag))
    (sts : List (Char × SpecialTag)) (tiersData : List (Str × List Char))
    (acc tiers : List (Str × Tier))
    (h : buildTiers tags sts acc tiersData = .ok tiers)
    (hacc : ∀ tv ∈ acc, ∀ kv ∈ tv.2.content, chainLookup tags sts kv.1 = some kv.2) :
    ∀ tv ∈ tiers, ∀ kv ∈ tv.2.content, chainLookup tags sts kv.1 = some kv.2 := by
  induction tiersData generalizing acc with
  | nil =>
    simp only [buildTiers] at h
    injection h with h
    exact h ▸ hacc
  | cons tkv rest ih =>
    simp only [buildTiers] at h
    cases hc : buildTierTags tags sts tkv.1 [] tkv.2 with
    | error e => rw [hc] at h; cases h
    | ok content =>
      rw [hc] at h
      refine ih (dictInsert acc tkv.1 (Tier.mk tkv.1 content)) h ?_
      exact dictInsert_forall _ _ _ hacc
        (buildTierTags_sound tags sts tkv.1 tkv.2 [] content hc (by simp))

theorem findSpecial_eq_none (sts : List (Char × SpecialTag)) (f : SpecialFunction)
    (h : ∀ kv ∈ sts, kv.2.function ≠ f) : findSpecial sts f = none := by
  induction sts with
  | nil => rfl
  | cons kv rest ih =>
    have step : findSpecial (kv :: rest) f = findSpecial rest f := by
      unfold findSpecial
      rw [List.foldl_cons, if_neg (h kv (List.mem_cons_self kv rest))]
    rw [step]
    exact ih (fun kv2 h2 => h kv2 (List.mem_cons_of_mem kv h2))

/-- C3 counterexample: a schema-valid document with no comment special tag
loads successfully, a parser is constructible from it, its comment marker
stays unset and parsing fails only later with an attribute error; a document
with two comment special tags also loads, the parser binding the last one. -/
theorem C3_counterexample :
    ((Convention.fromdata noCommentData).toOption.map
        (fun conv => (AnnotationParser.mk conv none).commentMarker)) = some none ∧
    ((Convention.fromdata noCommentData).toOption.map
        (fun conv => (AnnotationParser.mk conv none).parse (("a").toList)))
      = some (.error ParseError.attributeError) ∧
    ((Convention.fromdata twoCommentData).toOption.map
        (fun conv => (AnnotationParser.mk conv none).commentMarker))
      = some (some { input := '~', function := SpecialFunction.comment }) := by
  exact ⟨rfl, rfl, rfl⟩

/-- C3 amended: loading performs no count check on special-tag functions. Any
schema-valid document whose tier references resolve loads successfully no
matter how many special tags of each function it defines; the parser is still
constructible, and when no special tag has function comment the marker stays
unset, so every parse (rather than the load) fails with an attribute error. -/
theorem C3_amended_no_count_check (data : ConventionData)
    (h : ∀ tkv ∈ data.tiers, ∀ c ∈ tkv.2,
        (chainLookup (buildTags [] data.tags)
          (buildSpecialTags [] data.special_tags) c).isSome) :
    ∃ conv, Convention.fromdata data = .ok conv ∧
      ((∀ kv ∈ conv.special_tags, kv.2.function ≠ SpecialFunction.comment) →
        ∀ compact, (AnnotationParser.mk conv none).parse compact
          = .error ParseError.attributeError) := by
  obtain ⟨tiers, ht⟩ := buildTiers_ok_of_all _ _ data.tiers [] h
  refine ⟨⟨data.meta, data.options, buildSpecialTags [] data.special_tags,
    buildTags [] data.tags, tiers⟩, by simp only [Convention.fromdata, ht], ?_⟩
  intro hnone compact
  have hm : (AnnotationParser.mk
      ⟨data.meta, data.options, buildSpecialTags [] data.special_tags,
        buildTags [] data.tags, tiers⟩ none).commentMarker = none :=
    findSpecial_eq_none _ _ hnone
  simp only [AnnotationParser.parse, hm]

/-- Witness for C3 amended on the document with no comment special tag. -/
theorem C3_amended_witness :
    ∃ conv, Convention.fromdata noCommentData = .ok conv ∧
      ((∀ kv ∈ conv.special_tags, kv.2.function ≠ SpecialFunction.comment) →
        ∀ compact, (AnnotationParser.mk conv none).parse compact
          = .error ParseError.attributeError) :=
  C3_amended_no_count_check noCommentData (by decide)

/-- C9: namespace completeness at load. A document in which some tier
references a character outside the combined namespace always fails with a
key error naming an offending tier and character (so no Convention is
produced), and in every successfully loaded Convention every character of
every tier's content resolves in the combined namespace. -/
theorem C9_namespace_completeness (data : ConventionData) :
    ((∃ tkv ∈ data.tiers, ∃ c ∈ tkv.2,
        chainLookup (buildTags [] data.tags)
          (buildSpecialTags [] data.special_tags) c = none) →
      ∃ tl c, (∃ refs, (tl, refs) ∈ data.tiers ∧ c ∈ refs) ∧
        chainLookup (buildTags [] data.tags)
          (buildSpecialTags [] data.special_tags) c = none ∧
        Convention.fromdata data = .error (.keyError tl c)) ∧
    (∀ conv, Convention.fromdata data = .ok conv →
      ∀ tv ∈ conv.tiers, ∀ kv ∈ tv.2.content,
        chainLookup conv.tags conv.special_tags kv.1 = some kv.2) := by
  constructor
  · intro h
    obtain ⟨tl, c, hm, hn, he⟩ := buildTiers_err_of_exists _ _ data.tiers h []
    exact ⟨tl, c, hm, hn, by simp only [Convention.fromdata, he]⟩
  · intro conv hconv
    simp only [Convention.fromdata] at hconv
    cases hb : buildTiers (buildTags [] data.tags)
        (buildSpecialTags [] data.special_tags) [] data.tiers with
    | error e => rw [hb] at hconv; cases hconv
    | ok tiers =>
      rw [hb] at hconv
      injection hconv with hconv
      rw [← hconv]
      exact buildTiers_sound _ _ data.tiers [] tiers hb (by simp)

/-- Witness for C9 on the document whose tier t1 references the undefined
character z. -/
theorem C9_witness :
    ∃ tl c, (∃ refs, (tl, refs) ∈ badRefData.tiers ∧ c ∈ refs) ∧
      chainLookup (buildTags [] badRefData.tags)
        (buildSpecialTags [] badRefData.special_tags) c = none ∧
      Convention.fromdata badRefData = .error (.keyError tl c) :=
  (C9_namespace_completeness badRefData).1 (by decide)

end Holltwr
